import Mathlib

/-
Verification development for the arc-sdk migration runner
(db/migrations/migrations.go) and key-value store (store package).

The Go code is shallowly embedded: pure string manipulation is translated
function-by-function, the database is an explicit state value, and the
abstract execution of a migration script body against the rest of the
database is a parameter of type `Exec`, a deterministic partial function
(`none` models a failing SQL statement; the surrounding transaction then
rolls back, which the embedding renders by returning the pre-transaction
state unchanged).
-/

set_option maxRecDepth 10000

/-! ## String helpers mirroring the Go standard library calls -/

/-- strings.SplitN(s, "_", 2): split at the first underscore.
`none` models the Go result having fewer than 2 parts (no underscore). -/
def splitOnce : List Char → Option (List Char × List Char)
  | [] => none
  | c :: rest =>
    if c = '_' then some ([], rest)
    else
      match splitOnce rest with
      | none => none
      | some (a, b) => some (c :: a, b)

/-- strings.TrimLeft(s, "0"): drop every leading '0' character. -/
def trimLeftZeros : List Char → List Char
  | [] => []
  | c :: rest => if c = '0' then trimLeftZeros rest else c :: rest

/-- Decimal value of a digit string, as Go's strconv does digit by digit. -/
def digitsToNat (s : List Char) : Nat :=
  s.foldl (fun a c => a * 10 + (c.toNat - 48)) 0

/-- strconv.Atoi: optional sign, then a nonempty run of decimal digits,
value within the signed 64-bit integer range; `none` is the error case. -/
def atoi (s : List Char) : Option Int :=
  match s with
  | [] => none
  | c :: rest =>
    if c = '-' then
      if rest ≠ [] ∧ rest.all Char.isDigit then
        let v : Int := -(digitsToNat rest : Int)
        if -(2 ^ 63) ≤ v then some v else none
      else none
    else if c = '+' then
      if rest ≠ [] ∧ rest.all Char.isDigit then
        let v : Int := (digitsToNat rest : Int)
        if v ≤ 2 ^ 63 - 1 then some v else none
      else none
    else
      if (c :: rest).all Char.isDigit then
        let v : Int := (digitsToNat (c :: rest) : Int)
        if v ≤ 2 ^ 63 - 1 then some v else none
      else none

/-- filepath.Base for the names at hand (no trailing separator): the part
after the last '/'. -/
def baseName (s : List Char) : List Char :=
  (s.reverse.takeWhile (fun c => !(c == '/'))).reverse

/-! ## Migration discovery (loadEmbeddedMigrations) -/

/-- The `mig` struct of migrations.go. -/
structure Mig where
  version : Int
  name : String
  path : String
deriving DecidableEq, Repr

/-- The body of the discovery loop in loadEmbeddedMigrations, on the
character list of the filename: suffix check, filepath.Base, strings.SplitN
at the first '_', TrimLeft of zeros, Atoi. Any failing step skips the
entry (`none`). -/
def parseEntryL (l : List Char) : Option Mig :=
  if ".sql".data <:+ l then
    match splitOnce (baseName l) with
    | none => none
    | some (p, rest) =>
      match atoi (trimLeftZeros p) with
      | none => none
      | some v => some ⟨v, ⟨rest⟩, "sql/" ++ ⟨l⟩⟩
  else none

/-- The discovery loop body on the filename itself. -/
def parseEntry (name : String) : Option Mig :=
  parseEntryL name.data

/-- Insert into a list sorted by ascending version. -/
def insertMig (m : Mig) : List Mig → List Mig
  | [] => [m]
  | x :: xs => if m.version ≤ x.version then m :: x :: xs else x :: insertMig m xs

/-- sort.Slice over versions, rendered as insertion sort (the claims only
concern the version order of the result, on which every sort agrees). -/
def sortMigs : List Mig → List Mig
  | [] => []
  | x :: xs => insertMig x (sortMigs xs)

/-- loadEmbeddedMigrations over a list of directory entry names. -/
def loadEmbeddedMigrations (entries : List String) : List Mig :=
  sortMigs (entries.filterMap parseEntry)

/-! ## Database state and the migration runner -/

/-- The embedded file system: (base filename, script body) pairs. -/
def FS := List (String × String)

/-- Abstract execution of one script body against the non-bookkeeping part
of the database. Deterministic; `none` is a failing statement. -/
def Exec (σ : Type) := String → σ → Option σ

/-- The observable database state: whether schema_migrations exists, its
rows (version, name) in insertion order, and the rest of the schema. -/
structure MigState (σ : Type) where
  schemaTable : Bool
  records : List (Int × String)
  schema : σ
deriving DecidableEq, Repr

/-- fs.ReadFile on the embedded FS (paths are "sql/<name>"). -/
def readFile (fs : FS) (path : String) : Option String :=
  (fs.find? (fun e => ("sql/" ++ e.1) == path)).map Prod.snd

/-- CREATE TABLE IF NOT EXISTS schema_migrations: idempotent creation. -/
def ensureSchemaTable (st : MigState σ) : MigState σ :=
  if st.schemaTable then st else { st with schemaTable := true }

/-- SELECT version FROM schema_migrations, collected into the applied set. -/
def loadApplied (st : MigState σ) : List Int :=
  st.records.map Prod.fst

/-- applyOne: read the file, then inside one transaction execute the body
and INSERT the bookkeeping row. The INSERT fails exactly when the version
primary key is already present. Any failure returns `none`: the caller
keeps the pre-transaction state, which is the rollback. -/
def applyOne (exec : Exec σ) (fs : FS) (st : MigState σ) (m : Mig) :
    Option (MigState σ) :=
  match readFile fs m.path with
  | none => none
  | some body =>
    match exec body st.schema with
    | none => none
    | some sch =>
      if m.version ∈ st.records.map Prod.fst then none
      else some { st with schema := sch
                          records := st.records ++ [(m.version, m.name)] }

/-- Result of a run: final state, the scripts handed to applyOne in order,
and the script whose transaction failed, if any. -/
structure RunResult (σ : Type) where
  state : MigState σ
  attempted : List Mig
  err : Option Mig
deriving DecidableEq, Repr

/-- The loop of RunMigrations: skip versions in the pre-loaded applied set,
otherwise applyOne; on failure return immediately (fail-fast). -/
def runLoop (exec : Exec σ) (fs : FS) (applied : List Int) :
    List Mig → MigState σ → RunResult σ
  | [], st => ⟨st, [], none⟩
  | m :: ms, st =>
    if m.version ∈ applied then runLoop exec fs applied ms st
    else
      match applyOne exec fs st m with
      | none => ⟨st, [m], some m⟩
      | some st' =>
        let r := runLoop exec fs applied ms st'
        ⟨r.state, m :: r.attempted, r.err⟩

/-- RunMigrations: ensure the tracking table, load the applied set once,
discover and sort the embedded scripts, run the loop. -/
def RunMigrations (exec : Exec σ) (fs : FS) (st : MigState σ) : RunResult σ :=
  let st1 := ensureSchemaTable st
  let applied := loadApplied st1
  let migs := loadEmbeddedMigrations (fs.map Prod.fst)
  runLoop exec fs applied migs st1

/-! ## Key-value store (store package) -/

/-- Opaque byte values ([]byte); the code never does byte arithmetic. -/
abbrev Bytes := List Nat

/-- The error values the store surfaces: the ErrNotFound sentinel, and the
distinct values json.Unmarshal / json.Marshal produce on failure. -/
inductive StoreError where
  | notFound : StoreError
  | decodeFailed : String → StoreError
  | encodeFailed : String → StoreError
deriving DecidableEq, Repr

/-- memoryStore: an in-process map from keys to byte values. -/
structure MemoryStore where
  data : String → Option Bytes

/-- memoryStore.Get: ErrNotFound when the key is absent. -/
def MemoryStore.Get (s : MemoryStore) (key : String) : Except StoreError Bytes :=
  match s.data key with
  | none => Except.error StoreError.notFound
  | some v => Except.ok v

/-- memoryStore.Set: overwrite in place. -/
def MemoryStore.Set (s : MemoryStore) (key : String) (value : Bytes) :
    MemoryStore :=
  ⟨fun k => if k = key then some value else s.data k⟩

/-- memoryStore.Delete: remove the binding; a no-op on an absent key. -/
def MemoryStore.Delete (s : MemoryStore) (key : String) : MemoryStore :=
  ⟨fun k => if k = key then none else s.data k⟩

/-- sqliteStore: the kv_store table, key TEXT PRIMARY KEY mapping to the
value and its updated_at stamp. The Go []byte/string conversions around
the TEXT column are byte-exact, so values are carried unchanged. -/
structure SqliteStore where
  table : String → Option (Bytes × Nat)

/-- sqliteStore.Get: SELECT value WHERE key = ?; sql.ErrNoRows becomes
ErrNotFound. -/
def SqliteStore.Get (s : SqliteStore) (key : String) : Except StoreError Bytes :=
  match s.table key with
  | none => Except.error StoreError.notFound
  | some (v, _) => Except.ok v

/-- sqliteStore.Set: INSERT .. ON CONFLICT(key) DO UPDATE, with the caller
clock value time.Now().UnixNano() passed in as `now`. -/
def SqliteStore.Set (s : SqliteStore) (key : String) (value : Bytes)
    (now : Nat) : SqliteStore :=
  ⟨fun k => if k = key then some (value, now) else s.table k⟩

/-- sqliteStore.Delete: DELETE FROM kv_store WHERE key = ?. -/
def SqliteStore.Delete (s : SqliteStore) (key : String) : SqliteStore :=
  ⟨fun k => if k = key then none else s.table k⟩

/-- The KVStore interface restricted to what GetJSON/SetJSON use. -/
structure KV (S : Type) where
  get : S → String → Except StoreError Bytes
  set : S → String → Bytes → S

/-- The memory backend seen through the interface. -/
def memKV : KV MemoryStore :=
  ⟨MemoryStore.Get, MemoryStore.Set⟩

/-- The durable backend seen through the interface, at a fixed clock. -/
def sqlKV (now : Nat) : KV SqliteStore :=
  ⟨SqliteStore.Get, fun s k v => s.Set k v now⟩

/-- GetJSON: store.Get, then json.Unmarshal; the store error (including
ErrNotFound) passes through verbatim, an unmarshal failure becomes the
distinct decode-failure value. -/
def GetJSON (kv : KV S) (unmarshal : Bytes → Except String T)
    (s : S) (key : String) : Except StoreError T :=
  match kv.get s key with
  | Except.error e => Except.error e
  | Except.ok data =>
    match unmarshal data with
    | Except.error msg => Except.error (StoreError.decodeFailed msg)
    | Except.ok v => Except.ok v

/-- SetJSON: json.Marshal, then store.Set. -/
def SetJSON (kv : KV S) (marshal : T → Except String Bytes)
    (s : S) (key : String) (value : T) : Except StoreError S :=
  match marshal value with
  | Except.error msg => Except.error (StoreError.encodeFailed msg)
  | Except.ok data => Except.ok (kv.set s key data)

/-! ## Conditions written from the spec's words, for comparison -/

/-- The claim's inclusion condition (C4, spec words): the part of the
filename before the first underscore is the decimal numeral of a
non-negative integer — nonempty and made of digits only. -/
def claimNonNegIntPrefix (name : String) : Bool :=
  match splitOnce name.data with
  | none => false
  | some (p, _) => !p.isEmpty && p.all Char.isDigit

/-- An optionally-signed nonempty digit string whose value fits a signed
64-bit integer: the condition Atoi actually accepts. -/
def signedNumeral (s : List Char) : Bool :=
  match s with
  | [] => false
  | c :: rest =>
    if c = '-' then
      !rest.isEmpty && rest.all Char.isDigit &&
        decide (-(2 ^ 63) ≤ -(digitsToNat rest : Int))
    else if c = '+' then
      !rest.isEmpty && rest.all Char.isDigit &&
        decide ((digitsToNat rest : Int) ≤ 2 ^ 63 - 1)
    else
      (c :: rest).all Char.isDigit &&
        decide ((digitsToNat (c :: rest) : Int) ≤ 2 ^ 63 - 1)

/-- The amended inclusion condition (C4): .sql suffix, an underscore in
the base name, and — after stripping leading '0' characters — a prefix
that is a nonempty optionally-signed digit string in 64-bit range. -/
def goodEntry (name : String) : Bool :=
  decide (".sql".data <:+ name.data) &&
    match splitOnce (baseName name.data) with
    | none => false
    | some (p, _) => signedNumeral (trimLeftZeros p)

/-! ## Sorting lemmas -/

lemma mem_insertMig {y m : Mig} {l : List Mig} :
    y ∈ insertMig m l ↔ y = m ∨ y ∈ l := by
  induction l with
  | nil => simp [insertMig]
  | cons x xs ih =>
    by_cases h : m.version ≤ x.version
    · simp [insertMig, h]
    · simp only [insertMig, if_neg h, List.mem_cons, ih]
      tauto

lemma pairwise_insertMig {m : Mig} {l : List Mig}
    (hl : l.Pairwise (fun a b => a.version ≤ b.version)) :
    (insertMig m l).Pairwise (fun a b => a.version ≤ b.version) := by
  induction l with
  | nil => simp [insertMig]
  | cons x xs ih =>
    rw [List.pairwise_cons] at hl
    obtain ⟨hx, hxs⟩ := hl
    by_cases h : m.version ≤ x.version
    · rw [insertMig, if_pos h]
      refine List.Pairwise.cons ?_ (List.Pairwise.cons hx hxs)
      intro y hy
      rcases List.mem_cons.mp hy with rfl | hy
      · exact h
      · exact le_trans h (hx y hy)
    · rw [insertMig, if_neg h]
      refine List.Pairwise.cons ?_ (ih hxs)
      intro y hy
      rcases mem_insertMig.mp hy with rfl | hy
      · omega
      · exact hx y hy

lemma sortMigs_pairwise (l : List Mig) :
    (sortMigs l).Pairwise (fun a b => a.version ≤ b.version) := by
  induction l with
  | nil => exact List.Pairwise.nil
  | cons x xs ih => exact pairwise_insertMig ih

lemma mem_sortMigs {y : Mig} {l : List Mig} : y ∈ sortMigs l ↔ y ∈ l := by
  induction l with
  | nil => simp [sortMigs]
  | cons x xs ih => simp [sortMigs, mem_insertMig, ih]

lemma countP_insertMig (p : Mig → Bool) (m : Mig) (l : List Mig) :
    (insertMig m l).countP p = (m :: l).countP p := by
  induction l with
  | nil => rfl
  | cons x xs ih =>
    by_cases h : m.version ≤ x.version
    · rw [insertMig, if_pos h]
    · rw [insertMig, if_neg h, List.countP_cons, List.countP_cons, ih,
        List.countP_cons, List.countP_cons]
      omega

lemma countP_sortMigs (p : Mig → Bool) (l : List Mig) :
    (sortMigs l).countP p = l.countP p := by
  induction l with
  | nil => rfl
  | cons x xs ih =>
    rw [sortMigs, countP_insertMig, List.countP_cons, ih, List.countP_cons]

/-! ## applyOne and runLoop lemmas -/

lemma applyOne_some {exec : Exec σ} {fs : FS} {st st' : MigState σ} {m : Mig}
    (h : applyOne exec fs st m = some st') :
    st'.schemaTable = st.schemaTable ∧
    st'.records = st.records ++ [(m.version, m.name)] ∧
    m.version ∉ st.records.map Prod.fst := by
  unfold applyOne at h
  cases hr : readFile fs m.path with
  | none => simp only [hr] at h; cases h
  | some body =>
    simp only [hr] at h
    cases he : exec body st.schema with
    | none => simp only [he] at h; cases h
    | some sch =>
      simp only [he] at h
      by_cases hv : m.version ∈ st.records.map Prod.fst
      · simp only [if_pos hv] at h; cases h
      · simp only [if_neg hv, Option.some.injEq] at h
        subst h
        exact ⟨rfl, rfl, hv⟩

lemma runLoop_schemaTable (exec : Exec σ) (fs : FS) (A : List Int) :
    ∀ (migs : List Mig) (st : MigState σ),
      (runLoop exec fs A migs st).state.schemaTable = st.schemaTable := by
  intro migs
  induction migs with
  | nil => intro st; rfl
  | cons m ms ih =>
    intro st
    rw [runLoop]
    by_cases hA : m.version ∈ A
    · rw [if_pos hA]; exact ih st
    · rw [if_neg hA]
      cases happ : applyOne exec fs st m with
      | none => rfl
      | some st' =>
        simp only []
        rw [ih st', (applyOne_some happ).1]

lemma runLoop_records_extend (exec : Exec σ) (fs : FS) (A : List Int) :
    ∀ (migs : List Mig) (st : MigState σ),
      st.records <+: (runLoop exec fs A migs st).state.records := by
  intro migs
  induction migs with
  | nil => intro st; exact List.prefix_refl _
  | cons m ms ih =>
    intro st
    rw [runLoop]
    by_cases hA : m.version ∈ A
    · rw [if_pos hA]; exact ih st
    · rw [if_neg hA]
      cases happ : applyOne exec fs st m with
      | none => exact List.prefix_refl _
      | some st' =>
        simp only []
        have h1 : st.records <+: st'.records := by
          rw [(applyOne_some happ).2.1]; exact List.prefix_append _ _
        exact h1.trans (ih st')

lemma runLoop_attempted_sublist (exec : Exec σ) (fs : FS) (A : List Int) :
    ∀ (migs : List Mig) (st : MigState σ),
      List.Sublist (runLoop exec fs A migs st).attempted migs := by
  intro migs
  induction migs with
  | nil => intro st; exact List.Sublist.refl _
  | cons m ms ih =>
    intro st
    rw [runLoop]
    by_cases hA : m.version ∈ A
    · rw [if_pos hA]; exact (ih st).cons m
    · rw [if_neg hA]
      cases happ : applyOne exec fs st m with
      | none => exact (List.nil_sublist ms).cons₂ m
      | some st' =>
        simp only []
        exact (ih st').cons₂ m

lemma runLoop_attempted_not_applied (exec : Exec σ) (fs : FS) (A : List Int) :
    ∀ (migs : List Mig) (st : MigState σ),
      ∀ m ∈ (runLoop exec fs A migs st).attempted, m.version ∉ A := by
  intro migs
  induction migs with
  | nil => intro st m hm; cases hm
  | cons m ms ih =>
    intro st p hp
    rw [runLoop] at hp
    by_cases hA : m.version ∈ A
    · rw [if_pos hA] at hp; exact ih st p hp
    · rw [if_neg hA] at hp
      cases happ : applyOne exec fs st m with
      | none =>
        rw [happ] at hp
        simp only [List.mem_singleton] at hp
        subst hp; exact hA
      | some st' =>
        rw [happ] at hp
        simp only [List.mem_cons] at hp
        rcases hp with rfl | hp
        · exact hA
        · exact ih st' p hp

lemma runLoop_records_from (exec : Exec σ) (fs : FS) (A : List Int) :
    ∀ (migs : List Mig) (st : MigState σ),
      ∀ r ∈ (runLoop exec fs A migs st).state.records,
        r ∈ st.records ∨ ∃ m ∈ migs, r.1 = m.version := by
  intro migs
  induction migs with
  | nil => intro st r hr; exact Or.inl hr
  | cons m ms ih =>
    intro st r hr
    rw [runLoop] at hr
    by_cases hA : m.version ∈ A
    · rw [if_pos hA] at hr
      rcases ih st r hr with h | ⟨m2, hm2, hv⟩
      · exact Or.inl h
      · exact Or.inr ⟨m2, List.mem_cons_of_mem _ hm2, hv⟩
    · rw [if_neg hA] at hr
      cases happ : applyOne exec fs st m with
      | none => rw [happ] at hr; exact Or.inl hr
      | some st' =>
        rw [happ] at hr
        rcases ih st' r hr with h | ⟨m2, hm2, hv⟩
        · rw [(applyOne_some happ).2.1] at h
          rcases List.mem_append.mp h with h | h
          · exact Or.inl h
          · simp only [List.mem_singleton] at h
            subst h
            exact Or.inr ⟨m, List.mem_cons_self _ _, rfl⟩
        · exact Or.inr ⟨m2, List.mem_cons_of_mem _ hm2, hv⟩

lemma runLoop_err_none_applied (exec : Exec σ) (fs : FS) (A : List Int) :
    ∀ (migs : List Mig) (st : MigState σ),
      (runLoop exec fs A migs st).err = none →
      ∀ m ∈ migs, m.version ∈ A ∨
        m.version ∈ (runLoop exec fs A migs st).state.records.map Prod.fst := by
  intro migs
  induction migs with
  | nil => intro st _ m hm; cases hm
  | cons m ms ih =>
    intro st herr p hp
    rw [runLoop] at herr ⊢
    by_cases hA : m.version ∈ A
    · rw [if_pos hA] at herr ⊢
      rcases List.mem_cons.mp hp with rfl | hp
      · exact Or.inl hA
      · exact ih st herr p hp
    · rw [if_neg hA] at herr ⊢
      cases happ : applyOne exec fs st m with
      | none => rw [happ] at herr; simp at herr
      | some st' =>
        rw [happ] at herr
        simp only [] at herr ⊢
        rcases List.mem_cons.mp hp with rfl | hp
        · refine Or.inr ?_
          have hmem : (p.version, p.name) ∈ st'.records := by
            rw [(applyOne_some happ).2.1]
            exact List.mem_append_right _ (List.mem_singleton.mpr rfl)
          have hpre := runLoop_records_extend exec fs A ms st'
          have : (p.version, p.name) ∈
              (runLoop exec fs A ms st').state.records :=
            hpre.subset hmem
          exact List.mem_map.mpr ⟨(p.version, p.name), this, rfl⟩
        · exact ih st' herr p hp

lemma runLoop_all_applied (exec : Exec σ) (fs : FS) (A : List Int) :
    ∀ (migs : List Mig) (st : MigState σ),
      (∀ m ∈ migs, m.version ∈ A) →
      runLoop exec fs A migs st = ⟨st, [], none⟩ := by
  intro migs
  induction migs with
  | nil => intro st _; rfl
  | cons m ms ih =>
    intro st hall
    rw [runLoop, if_pos (hall m (List.mem_cons_self _ _))]
    exact ih st (fun p hp => hall p (List.mem_cons_of_mem _ hp))

lemma runLoop_err_none_committed (exec : Exec σ) (fs : FS) (A : List Int) :
    ∀ (migs : List Mig) (st : MigState σ),
      (runLoop exec fs A migs st).err = none →
      ∀ p ∈ (runLoop exec fs A migs st).attempted,
        (p.version, p.name) ∈ (runLoop exec fs A migs st).state.records := by
  intro migs
  induction migs with
  | nil => intro st _ p hp; cases hp
  | cons m ms ih =>
    intro st herr p hp
    rw [runLoop] at herr hp ⊢
    by_cases hA : m.version ∈ A
    · rw [if_pos hA] at herr hp ⊢
      exact ih st herr p hp
    · rw [if_neg hA] at herr hp ⊢
      cases happ : applyOne exec fs st m with
      | none => rw [happ] at herr; simp at herr
      | some st' =>
        rw [happ] at herr hp
        simp only [] at herr hp ⊢
        rcases List.mem_cons.mp hp with rfl | hp
        · have hmem : (p.version, p.name) ∈ st'.records := by
            rw [(applyOne_some happ).2.1]
            exact List.mem_append_right _ (List.mem_singleton.mpr rfl)
          exact (runLoop_records_extend exec fs A ms st').subset hmem
        · exact ih st' herr p hp

lemma runLoop_err_split (exec : Exec σ) (fs : FS) (A : List Int) :
    ∀ (migs : List Mig) (st S : MigState σ) (att0 : List Mig) (m : Mig),
      runLoop exec fs A migs st = ⟨S, att0, some m⟩ →
      ∃ pre post att,
        migs = pre ++ m :: post ∧
        runLoop exec fs A pre st = ⟨S, att, none⟩ ∧
        m.version ∉ A ∧
        applyOne exec fs S m = none ∧
        att0 = att ++ [m] := by
  intro migs
  induction migs with
  | nil =>
    intro st S att0 m hrun
    rw [runLoop] at hrun
    simp only [RunResult.mk.injEq] at hrun
    exact absurd hrun.2.2 (by simp)
  | cons m0 ms ih =>
    intro st S att0 m hrun
    rw [runLoop] at hrun
    by_cases hA : m0.version ∈ A
    · rw [if_pos hA] at hrun
      obtain ⟨pre, post, att, h1, h2, h3, h4, h5⟩ := ih st S att0 m hrun
      refine ⟨m0 :: pre, post, att, by rw [h1]; rfl, ?_, h3, h4, h5⟩
      rw [runLoop, if_pos hA]
      exact h2
    · rw [if_neg hA] at hrun
      cases happ : applyOne exec fs st m0 with
      | none =>
        rw [happ] at hrun
        simp only [RunResult.mk.injEq, Option.some.injEq] at hrun
        obtain ⟨hS, hatt, hm⟩ := hrun
        subst hS; subst hm
        refine ⟨[], ms, [], rfl, rfl, hA, happ, ?_⟩
        rw [← hatt]; rfl
      | some st' =>
        rw [happ] at hrun
        simp only [RunResult.mk.injEq] at hrun
        obtain ⟨hS, hatt, herr⟩ := hrun
        have hrun' : runLoop exec fs A ms st' =
            ⟨(runLoop exec fs A ms st').state,
              (runLoop exec fs A ms st').attempted, some m⟩ := by
          rw [← herr]
        obtain ⟨pre, post, att, h1, h2, h3, h4, h5⟩ :=
          ih st' (runLoop exec fs A ms st').state
            (runLoop exec fs A ms st').attempted m hrun'
        refine ⟨m0 :: pre, post, m0 :: att, by rw [h1]; rfl, ?_, h3, ?_, ?_⟩
        · rw [runLoop, if_neg hA, happ]
          simp only []
          rw [h2]
          simp only []
          rw [hS]
        · rw [← hS]; exact h4
        · rw [← hatt, h5]; rfl

lemma runLoop_countP_le_one (exec : Exec σ) (fs : FS) (A : List Int) (v : Int) :
    ∀ (migs : List Mig) (st : MigState σ),
      st.records.countP (fun r => r.1 == v) ≤ 1 →
      (runLoop exec fs A migs st).state.records.countP (fun r => r.1 == v) ≤ 1 := by
  intro migs
  induction migs with
  | nil => intro st h; exact h
  | cons m ms ih =>
    intro st h
    rw [runLoop]
    by_cases hA : m.version ∈ A
    · rw [if_pos hA]; exact ih st h
    · rw [if_neg hA]
      cases happ : applyOne exec fs st m with
      | none => exact h
      | some st' =>
        simp only []
        refine ih st' ?_
        obtain ⟨-, hrec, hnotin⟩ := applyOne_some happ
        rw [hrec, List.countP_append]
        by_cases hv : m.version = v
        · subst hv
          have hzero : st.records.countP (fun r => r.1 == m.version) = 0 := by
            rw [List.countP_eq_zero]
            intro r hr
            simp only [beq_iff_eq]
            intro hrv
            exact hnotin (List.mem_map.mpr ⟨r, hr, hrv⟩)
          have hlen := List.countP_le_length
            (p := fun r => r.1 == m.version) (l := [(m.version, m.name)])
          simp only [List.length_singleton] at hlen
          omega
        · have hone : ([(m.version, m.name)].countP (fun r => r.1 == v)) = 0 := by
            rw [List.countP_eq_zero]
            intro r hr
            simp only [List.mem_singleton] at hr
            subst hr
            simp [hv]
          omega

lemma runLoop_dup_err (exec : Exec σ) (fs : FS) (A : List Int) (v : Int) :
    ∀ (migs : List Mig) (st : MigState σ),
      v ∉ A →
      st.records.countP (fun r => r.1 == v) ≤ 1 →
      2 ≤ migs.countP (fun m => m.version == v) +
          st.records.countP (fun r => r.1 == v) →
      (runLoop exec fs A migs st).err ≠ none := by
  intro migs
  induction migs with
  | nil =>
    intro st hA hle hsum
    rw [List.countP_nil] at hsum
    omega
  | cons m ms ih =>
    intro st hA hle hsum
    rw [runLoop]
    by_cases hmA : m.version ∈ A
    · rw [if_pos hmA]
      have hmv : ¬ ((fun p => p.version == v) m = true) := by
        simp only [beq_iff_eq]
        intro h
        subst h
        exact hA hmA
      rw [List.countP_cons_of_neg (fun q => q.version == v) ms hmv] at hsum
      exact ih st hA hle hsum
    · rw [if_neg hmA]
      cases happ : applyOne exec fs st m with
      | none => simp
      | some st' =>
        simp only []
        intro herr
        obtain ⟨-, hrec, hnotin⟩ := applyOne_some happ
        by_cases hmv : m.version = v
        · subst hmv
          have hzero : st.records.countP (fun r => r.1 == m.version) = 0 := by
            rw [List.countP_eq_zero]
            intro r hr
            simp only [beq_iff_eq]
            intro hrv
            exact hnotin (List.mem_map.mpr ⟨r, hr, hrv⟩)
          have hone : st'.records.countP (fun r => r.1 == m.version) = 1 := by
            rw [hrec, List.countP_append, hzero,
              List.countP_cons_of_pos _ _ (by simp), List.countP_nil]
          have hms : 1 ≤ ms.countP (fun p => p.version == m.version) := by
            rw [List.countP_cons_of_pos _ _ (by simp)] at hsum
            omega
          exact ih st' hA (by omega) (by omega) herr
        · have hsame : st'.records.countP (fun r => r.1 == v) =
              st.records.countP (fun r => r.1 == v) := by
            rw [hrec, List.countP_append,
              List.countP_cons_of_neg _ _ (by simp [hmv]), List.countP_nil,
              Nat.add_zero]
          rw [List.countP_cons_of_neg (fun q => q.version == v) ms
            (by simp [hmv])] at hsum
          refine ih st' hA ?_ ?_ herr
          · rw [hsame]; exact hle
          · rw [hsame]; omega

lemma ensureSchemaTable_true (st : MigState σ) :
    (ensureSchemaTable st).schemaTable = true := by
  unfold ensureSchemaTable
  by_cases h : st.schemaTable
  · rw [if_pos h]; exact h
  · rw [if_neg h]

lemma ensureSchemaTable_records (st : MigState σ) :
    (ensureSchemaTable st).records = st.records := by
  unfold ensureSchemaTable
  by_cases h : st.schemaTable
  · rw [if_pos h]
  · rw [if_neg h]

/-! ## Filename parsing lemmas -/

lemma splitOnce_append {p rest : List Char} (h : '_' ∉ p) :
    splitOnce (p ++ '_' :: rest) = some (p, rest) := by
  induction p with
  | nil => rw [List.nil_append, splitOnce, if_pos rfl]
  | cons c cs ih =>
    have hc : ¬ c = '_' := fun hc => h (hc ▸ List.mem_cons_self c cs)
    rw [List.cons_append, splitOnce, if_neg hc,
      ih (fun hm => h (List.mem_cons_of_mem _ hm))]

lemma takeWhile_no_slash {l : List Char} (h : ∀ c ∈ l, c ≠ '/') :
    l.takeWhile (fun c => !(c == '/')) = l := by
  induction l with
  | nil => rfl
  | cons c cs ih =>
    rw [List.takeWhile_cons]
    have hc : (!(c == '/')) = true := by
      simp [h c (List.mem_cons_self _ _)]
    rw [hc]
    simp only [if_true]
    rw [ih (fun x hx => h x (List.mem_cons_of_mem _ hx))]

lemma baseName_eq_self {s : List Char} (h : '/' ∉ s) : baseName s = s := by
  unfold baseName
  rw [takeWhile_no_slash (fun c hc hceq => h (hceq ▸ List.mem_reverse.mp hc)),
    List.reverse_reverse]

lemma digitsToNat_cons_zero (cs : List Char) :
    digitsToNat ('0' :: cs) = digitsToNat cs := by
  unfold digitsToNat
  rw [List.foldl_cons]
  have h : '0'.toNat - 48 = 0 := by decide
  rw [h]

lemma digitsToNat_trimLeftZeros (p : List Char) :
    digitsToNat (trimLeftZeros p) = digitsToNat p := by
  induction p with
  | nil => rfl
  | cons c cs ih =>
    rw [trimLeftZeros]
    by_cases hc : c = '0'
    · rw [if_pos hc, ih, hc, digitsToNat_cons_zero]
    · rw [if_neg hc]

lemma trimLeftZeros_all {p : List Char} {f : Char → Bool}
    (h : p.all f = true) : (trimLeftZeros p).all f = true := by
  induction p with
  | nil => exact h
  | cons c cs ih =>
    rw [List.all_cons, Bool.and_eq_true] at h
    rw [trimLeftZeros]
    by_cases hc : c = '0'
    · rw [if_pos hc]; exact ih h.2
    · rw [if_neg hc, List.all_cons, Bool.and_eq_true]
      exact h

lemma digit_ne_minus {c : Char} (h : c.isDigit = true) : ¬ c = '-' := by
  intro hc
  subst hc
  exact absurd h (by decide)

lemma digit_ne_plus {c : Char} (h : c.isDigit = true) : ¬ c = '+' := by
  intro hc
  subst hc
  exact absurd h (by decide)

lemma atoi_digits {d : List Char} (hne : d ≠ [])
    (hdig : d.all Char.isDigit = true)
    (hrange : (digitsToNat d : Int) ≤ 2 ^ 63 - 1) :
    atoi d = some (digitsToNat d : Int) := by
  cases d with
  | nil => exact absurd rfl hne
  | cons c cs =>
    have hc : c.isDigit = true := by
      rw [List.all_cons, Bool.and_eq_true] at hdig
      exact hdig.1
    rw [atoi, if_neg (digit_ne_minus hc), if_neg (digit_ne_plus hc),
      if_pos hdig]
    simp only []
    rw [if_pos hrange]

lemma atoi_isSome_eq (s : List Char) : (atoi s).isSome = signedNumeral s := by
  cases s with
  | nil => rfl
  | cons c rest =>
    by_cases hm : c = '-'
    · rw [atoi, signedNumeral, if_pos hm, if_pos hm]
      by_cases h1 : rest ≠ [] ∧ rest.all Char.isDigit = true
      · rw [if_pos h1]
        simp only []
        by_cases h3 : -(2 ^ 63 : Int) ≤ -(digitsToNat rest : Int)
        · rw [if_pos h3]
          simp [h1.1, h1.2, h3, List.isEmpty_iff]
          omega
        · rw [if_neg h3]
          simp [h3]
          intro _ _
          omega
      · rw [if_neg h1]
        rcases Decidable.not_and_iff_or_not.mp h1 with h | h
        · simp only [ne_eq, Decidable.not_not] at h
          simp [h]
        · simp [Bool.eq_false_iff.mpr h]
    · by_cases hp : c = '+'
      · rw [atoi, signedNumeral, if_neg hm, if_neg hm, if_pos hp, if_pos hp]
        by_cases h1 : rest ≠ [] ∧ rest.all Char.isDigit = true
        · rw [if_pos h1]
          simp only []
          by_cases h3 : (digitsToNat rest : Int) ≤ 2 ^ 63 - 1
          · rw [if_pos h3]
            simp [h1.1, h1.2, h3, List.isEmpty_iff]
            omega
          · rw [if_neg h3]
            simp [h3]
            intro _ _
            omega
        · rw [if_neg h1]
          rcases Decidable.not_and_iff_or_not.mp h1 with h | h
          · simp only [ne_eq, Decidable.not_not] at h
            simp [h]
          · simp [Bool.eq_false_iff.mpr h]
      · rw [atoi, signedNumeral, if_neg hm, if_neg hm, if_neg hp, if_neg hp]
        by_cases h2 : (c :: rest).all Char.isDigit = true
        · rw [if_pos h2]
          simp only []
          by_cases h3 : (digitsToNat (c :: rest) : Int) ≤ 2 ^ 63 - 1
          · rw [if_pos h3]
            simp [h2, h3]
            omega
          · rw [if_neg h3]
            simp [h3]
            intro _ _
            omega
        · rw [if_neg h2]
          simp [Bool.eq_false_iff.mpr h2]

lemma mem_loadEmbeddedMigrations {entries : List String} {m : Mig} :
    m ∈ loadEmbeddedMigrations entries ↔
      ∃ name, name ∈ entries ∧ parseEntry name = some m := by
  unfold loadEmbeddedMigrations
  rw [mem_sortMigs, List.mem_filterMap]

lemma loadEmbeddedMigrations_skip {name : String} {rest : List String}
    (h : parseEntry name = none) :
    loadEmbeddedMigrations (name :: rest) = loadEmbeddedMigrations rest := by
  unfold loadEmbeddedMigrations
  rw [List.filterMap_cons_none h]

lemma parseEntry_isSome_eq (name : String) :
    (parseEntry name).isSome = goodEntry name := by
  unfold parseEntry parseEntryL goodEntry
  by_cases h : ".sql".data <:+ name.data
  · rw [if_pos h]
    simp only [h, decide_True, Bool.true_and]
    cases hsp : splitOnce (baseName name.data) with
    | none => rfl
    | some pr =>
      obtain ⟨p, rest⟩ := pr
      simp only []
      rw [← atoi_isSome_eq]
      cases hat : atoi (trimLeftZeros p) with
      | none => rfl
      | some v => rfl
  · rw [if_neg h]
    simp [h]

/-! ## Concrete fixtures for witnesses and counterexamples -/

/-- A concrete schema model for runs: the list of executed bodies. -/
abbrev SchemaL := List String

/-- A body execution that always succeeds, recording the body. -/
def execOk : Exec SchemaL := fun body sch => some (body :: sch)

/-- A body execution that fails exactly on the body "BAD". -/
def execBad : Exec SchemaL := fun body sch =>
  if body = "BAD" then none else some (body :: sch)

/-- A freshly created empty database. -/
def st0 : MigState SchemaL := ⟨false, [], []⟩

/-- The empty in-memory store. -/
def memEmpty : MemoryStore := ⟨fun _ => none⟩

/-- The empty durable store table. -/
def sqlEmpty : SqliteStore := ⟨fun _ => none⟩

/-- A concrete structured-value encoding for the typed wrapper. -/
def natMarshal : Nat → Except String Bytes := fun n => Except.ok [n]

/-- The matching decoding; any other shape is a decode failure. -/
def natUnmarshal : Bytes → Except String Nat := fun l =>
  match l with
  | [n] => Except.ok n
  | _ => Except.error "bad shape"

/-! ## Claim theorems -/

/-- C3: whatever order the embedded files are enumerated in, the discovered
list is sorted by ascending version, and the scripts actually handed to
applyOne during a run are in ascending version order: a smaller-versioned
pending script always executes before a larger-versioned one. -/
theorem migration_apply_order_sorted (exec : Exec σ) (fs : FS)
    (st : MigState σ) (entries : List String) :
    (loadEmbeddedMigrations entries).Pairwise
      (fun a b => a.version ≤ b.version) ∧
    (RunMigrations exec fs st).attempted.Pairwise
      (fun a b => a.version ≤ b.version) := by
  constructor
  · exact sortMigs_pairwise _
  · have hsub := runLoop_attempted_sublist exec fs
      (loadApplied (ensureSchemaTable st))
      (loadEmbeddedMigrations (fs.map Prod.fst)) (ensureSchemaTable st)
    exact (sortMigs_pairwise _).sublist hsub

/-- C4 counterexample: the filename "0_init.sql" has the non-negative
integer prefix "0" yet is excluded from discovery (TrimLeft of zeros
leaves an empty string, which Atoi rejects), while "-3_neg.sql" has a
negative prefix yet is included with version -3. -/
theorem migration_discovery_prefix_cex :
    claimNonNegIntPrefix "0_init.sql" = true ∧
    loadEmbeddedMigrations ["0_init.sql"] = [] ∧
    claimNonNegIntPrefix "-3_neg.sql" = false ∧
    loadEmbeddedMigrations ["-3_neg.sql"] =
      [⟨-3, "neg.sql", "sql/-3_neg.sql"⟩] := by
  decide

/-- C4 (amended): an entry is included in the apply sequence exactly when
its name ends in .sql, its base name has an underscore, and the prefix
with leading '0' characters stripped is a nonempty optionally-signed digit
string in signed-64-bit range (so all-zero prefixes are skipped and signed
prefixes are accepted); every other entry is skipped silently, never
aborting discovery. -/
theorem migration_discovery_inclusion :
    (∀ name : String, (parseEntry name).isSome = goodEntry name) ∧
    (∀ (entries : List String) (m : Mig),
      m ∈ loadEmbeddedMigrations entries ↔
        ∃ name, name ∈ entries ∧ parseEntry name = some m) ∧
    (∀ (name : String) (rest : List String), parseEntry name = none →
      loadEmbeddedMigrations (name :: rest) = loadEmbeddedMigrations rest) := by
  refine ⟨parseEntry_isSome_eq, ?_, ?_⟩
  · intro entries m
    exact mem_loadEmbeddedMigrations
  · intro name rest h
    exact loadEmbeddedMigrations_skip h

/-- C4 witness: a file without a parsable prefix is skipped without
aborting the run. -/
theorem migration_discovery_inclusion_witness :
    loadEmbeddedMigrations ["notes_v2.txt", "001_a.sql"] =
      loadEmbeddedMigrations ["001_a.sql"] :=
  migration_discovery_inclusion.2.2 "notes_v2.txt" ["001_a.sql"] (by decide)

/-- C5 counterexample: for the bundled filename "001_initial_schema.sql"
discovery records the name "initial_schema.sql" — the suffix after the
first underscore with the ".sql" extension still attached — and that
full name is what the tracking table receives, not "initial_schema". -/
theorem migration_name_extension_cex :
    (parseEntry "001_initial_schema.sql").map Mig.name =
      some "initial_schema.sql" ∧
    ("initial_schema.sql" : String) ≠ "initial_schema" ∧
    (RunMigrations execOk [("001_initial_schema.sql", "create")]
        st0).state.records = [(1, "initial_schema.sql")] := by
  decide

/-- C5 (amended): for a filename digits ++ "_" ++ rest where the digit
prefix is not all zeros, its value fits in 64 bits, and rest carries the
.sql suffix, discovery parses the version as the prefix value and the
name as the entire suffix after the first underscore, extension
included. -/
theorem parse_versioned_name (p rest : List Char)
    (hdig : p.all Char.isDigit = true)
    (hnz : trimLeftZeros p ≠ [])
    (hrange : (digitsToNat p : Int) ≤ 2 ^ 63 - 1)
    (hslash : '/' ∉ rest)
    (hsfx : ".sql".data <:+ rest) :
    parseEntry ⟨p ++ '_' :: rest⟩ =
      some ⟨(digitsToNat p : Int), ⟨rest⟩, "sql/" ++ ⟨p ++ '_' :: rest⟩⟩ := by
  have hu : '_' ∉ p := by
    intro hm
    have hd := List.all_eq_true.mp hdig _ hm
    exact absurd hd (by decide)
  have hsl : '/' ∉ p := by
    intro hm
    have hd := List.all_eq_true.mp hdig _ hm
    exact absurd hd (by decide)
  have hslash2 : '/' ∉ p ++ '_' :: rest := by
    intro hm
    rcases List.mem_append.mp hm with hm | hm
    · exact hsl hm
    · rcases List.mem_cons.mp hm with hm | hm
      · exact absurd hm (by decide)
      · exact hslash hm
  have hsfx2 : ".sql".data <:+ p ++ '_' :: rest :=
    hsfx.trans ((List.suffix_cons '_' rest).trans
      (List.suffix_append p ('_' :: rest)))
  have htd : (trimLeftZeros p).all Char.isDigit = true := trimLeftZeros_all hdig
  have hval : digitsToNat (trimLeftZeros p) = digitsToNat p :=
    digitsToNat_trimLeftZeros p
  show parseEntryL (p ++ '_' :: rest) = _
  unfold parseEntryL
  rw [if_pos hsfx2, baseName_eq_self hslash2, splitOnce_append hu]
  simp only []
  rw [atoi_digits hnz htd (by rw [hval]; exact hrange)]
  simp only []
  rw [hval]

/-- C5 witness: the repository's first migration filename parses to
version 1 with the extension kept in the name. -/
theorem parse_versioned_name_witness :
    parseEntry ⟨"001".data ++ '_' :: "initial_schema.sql".data⟩ =
      some ⟨(digitsToNat "001".data : Int), ⟨"initial_schema.sql".data⟩,
        "sql/" ++ ⟨"001".data ++ '_' :: "initial_schema.sql".data⟩⟩ :=
  parse_versioned_name "001".data "initial_schema.sql".data (by decide)
    (by decide) (by decide) (by decide) (by decide)

/-- C1 counterexample: with a script whose body fails, the first Apply
returns an error, and the second Apply against the resulting database
attempts the script again and returns an error again — so "running Apply
twice executes zero scripts on the second run and returns no error" does
not hold for every database state. -/
theorem migration_second_run_error_cex :
    (RunMigrations execBad [("001_a.sql", "BAD")] st0).err.isSome = true ∧
    (RunMigrations execBad [("001_a.sql", "BAD")]
      (RunMigrations execBad [("001_a.sql", "BAD")] st0).state).err.isSome
        = true ∧
    (RunMigrations execBad [("001_a.sql", "BAD")]
      (RunMigrations execBad [("001_a.sql", "BAD")] st0).state).attempted
        ≠ [] := by
  decide

/-- C1 (amended): provided the first Apply returns no error, running it a
second time executes zero scripts, inserts no bookkeeping records, returns
no error, and leaves the observable state exactly as the first run left
it. -/
theorem migration_apply_idempotent (exec : Exec σ) (fs : FS)
    (st : MigState σ) (h : (RunMigrations exec fs st).err = none) :
    RunMigrations exec fs (RunMigrations exec fs st).state =
      ⟨(RunMigrations exec fs st).state, [], none⟩ := by
  have hTable : (RunMigrations exec fs st).state.schemaTable = true := by
    have h1 := runLoop_schemaTable exec fs (loadApplied (ensureSchemaTable st))
      (loadEmbeddedMigrations (fs.map Prod.fst)) (ensureSchemaTable st)
    have h2 := ensureSchemaTable_true st
    exact h1.trans h2
  have hens : ensureSchemaTable (RunMigrations exec fs st).state =
      (RunMigrations exec fs st).state := by
    unfold ensureSchemaTable
    rw [if_pos hTable]
  have hall : ∀ m ∈ loadEmbeddedMigrations (fs.map Prod.fst),
      m.version ∈ loadApplied (RunMigrations exec fs st).state := by
    intro m hm
    have h2 := runLoop_err_none_applied exec fs
      (loadApplied (ensureSchemaTable st))
      (loadEmbeddedMigrations (fs.map Prod.fst)) (ensureSchemaTable st) h m hm
    rcases h2 with hA | hrec
    · unfold loadApplied at hA ⊢
      rw [ensureSchemaTable_records] at hA
      have hpre := runLoop_records_extend exec fs
        (loadApplied (ensureSchemaTable st))
        (loadEmbeddedMigrations (fs.map Prod.fst)) (ensureSchemaTable st)
      rw [ensureSchemaTable_records] at hpre
      exact (hpre.map Prod.fst).subset hA
    · exact hrec
  have hrun := runLoop_all_applied exec fs
    (loadApplied (RunMigrations exec fs st).state)
    (loadEmbeddedMigrations (fs.map Prod.fst))
    (RunMigrations exec fs st).state hall
  calc RunMigrations exec fs (RunMigrations exec fs st).state
      = runLoop exec fs
          (loadApplied (ensureSchemaTable (RunMigrations exec fs st).state))
          (loadEmbeddedMigrations (fs.map Prod.fst))
          (ensureSchemaTable (RunMigrations exec fs st).state) := rfl
    _ = ⟨(RunMigrations exec fs st).state, [], none⟩ := by
        rw [hens]
        exact hrun

/-- C1 witness: a successful run is a fixed point — the second run is a
no-op with no error. -/
theorem migration_apply_idempotent_witness :
    RunMigrations execOk [("001_a.sql", "x")]
        (RunMigrations execOk [("001_a.sql", "x")] st0).state =
      ⟨(RunMigrations execOk [("001_a.sql", "x")] st0).state, [], none⟩ :=
  migration_apply_idempotent execOk [("001_a.sql", "x")] st0 (by decide)

/-- C2: when Apply fails at script m, the final state is exactly the state
reached by successfully applying some prefix of the sorted pending scripts;
the failing script's transaction contributed nothing to it (full rollback:
applying m to that state is precisely the failing step), m was the last
script attempted, every earlier attempted script's bookkeeping record is
committed in the final state, the caller's prior records survive as a
prefix, and every script after m in the discovered order — in particular
every later-versioned one — was never attempted. -/
theorem migration_rollback_failfast (exec : Exec σ) (fs : FS)
    (st S : MigState σ) (att0 : List Mig) (m : Mig)
    (h : RunMigrations exec fs st = ⟨S, att0, some m⟩) :
    ∃ pre post att,
      loadEmbeddedMigrations (fs.map Prod.fst) = pre ++ m :: post ∧
      runLoop exec fs (loadApplied (ensureSchemaTable st)) pre
        (ensureSchemaTable st) = ⟨S, att, none⟩ ∧
      applyOne exec fs S m = none ∧
      att0 = att ++ [m] ∧
      st.records <+: S.records ∧
      (∀ p ∈ att, (p.version, p.name) ∈ S.records) ∧
      (∀ m2 ∈ post, m.version ≤ m2.version) := by
  have h' : runLoop exec fs (loadApplied (ensureSchemaTable st))
      (loadEmbeddedMigrations (fs.map Prod.fst)) (ensureSchemaTable st) =
      ⟨S, att0, some m⟩ := h
  obtain ⟨pre, post, att, h1, h2, h3, h4, h5⟩ :=
    runLoop_err_split exec fs (loadApplied (ensureSchemaTable st))
      (loadEmbeddedMigrations (fs.map Prod.fst)) (ensureSchemaTable st)
      S att0 m h'
  refine ⟨pre, post, att, h1, h2, h4, h5, ?_, ?_, ?_⟩
  · have hpre := runLoop_records_extend exec fs
      (loadApplied (ensureSchemaTable st)) pre (ensureSchemaTable st)
    rw [h2, ensureSchemaTable_records] at hpre
    exact hpre
  · have hcom := runLoop_err_none_committed exec fs
      (loadApplied (ensureSchemaTable st)) pre (ensureSchemaTable st)
      (by rw [h2])
    rw [h2] at hcom
    exact hcom
  · have hsort := sortMigs_pairwise
      (List.filterMap parseEntry (fs.map Prod.fst))
    unfold loadEmbeddedMigrations at h1
    rw [h1] at hsort
    have hmid := (List.pairwise_append.mp hsort).2.1
    exact (List.pairwise_cons.mp hmid).1

/-- C2 witness: with scripts 1, 2, 3 where script 2's body fails, version 1
commits, the run stops at 2 with the state it had before 2, and 3 is never
attempted. -/
theorem migration_rollback_failfast_witness :
    ∃ pre post att,
      loadEmbeddedMigrations
        ([("001_a.sql", "ok1"), ("002_b.sql", "BAD"),
          ("003_c.sql", "ok3")].map Prod.fst) = pre ++
            ⟨2, "b.sql", "sql/002_b.sql"⟩ :: post ∧
      runLoop execBad
        [("001_a.sql", "ok1"), ("002_b.sql", "BAD"), ("003_c.sql", "ok3")]
        (loadApplied (ensureSchemaTable st0)) pre (ensureSchemaTable st0) =
        ⟨⟨true, [(1, "a.sql")], ["ok1"]⟩, att, none⟩ ∧
      applyOne execBad
        [("001_a.sql", "ok1"), ("002_b.sql", "BAD"), ("003_c.sql", "ok3")]
        ⟨true, [(1, "a.sql")], ["ok1"]⟩ ⟨2, "b.sql", "sql/002_b.sql"⟩ =
          none ∧
      [⟨1, "a.sql", "sql/001_a.sql"⟩, ⟨2, "b.sql", "sql/002_b.sql"⟩] =
        att ++ [⟨2, "b.sql", "sql/002_b.sql"⟩] ∧
      st0.records <+: ([(1, "a.sql")] : List (Int × String)) ∧
      (∀ p ∈ att, (p.version, p.name) ∈ ([(1, "a.sql")] : List (Int × String))) ∧
      (∀ m2 ∈ post, (2 : Int) ≤ m2.version) :=
  migration_rollback_failfast execBad
    [("001_a.sql", "ok1"), ("002_b.sql", "BAD"), ("003_c.sql", "ok3")] st0
    ⟨true, [(1, "a.sql")], ["ok1"]⟩
    [⟨1, "a.sql", "sql/001_a.sql"⟩, ⟨2, "b.sql", "sql/002_b.sql"⟩]
    ⟨2, "b.sql", "sql/002_b.sql"⟩ (by decide)

/-- C6: Apply never deletes a tracking row (the prior records survive as a
prefix of the final records), it preserves the invariant that recorded
versions are a subset of the bundled script versions, and it never hands
to applyOne any script whose version was already recorded when the run
began — re-execution of an applied version cannot happen. -/
theorem migration_apply_invariants (exec : Exec σ) (fs : FS)
    (st : MigState σ) :
    st.records <+: (RunMigrations exec fs st).state.records ∧
    ((∀ v ∈ st.records.map Prod.fst,
        v ∈ (loadEmbeddedMigrations (fs.map Prod.fst)).map Mig.version) →
      ∀ v ∈ (RunMigrations exec fs st).state.records.map Prod.fst,
        v ∈ (loadEmbeddedMigrations (fs.map Prod.fst)).map Mig.version) ∧
    (∀ m ∈ (RunMigrations exec fs st).attempted,
      m.version ∉ st.records.map Prod.fst) := by
  refine ⟨?_, ?_, ?_⟩
  · have hpre := runLoop_records_extend exec fs
      (loadApplied (ensureSchemaTable st))
      (loadEmbeddedMigrations (fs.map Prod.fst)) (ensureSchemaTable st)
    rw [ensureSchemaTable_records] at hpre
    exact hpre
  · intro hsub v hv
    rw [List.mem_map] at hv
    obtain ⟨r, hr, hvr⟩ := hv
    have hfrom := runLoop_records_from exec fs
      (loadApplied (ensureSchemaTable st))
      (loadEmbeddedMigrations (fs.map Prod.fst)) (ensureSchemaTable st) r hr
    rcases hfrom with hin | ⟨m, hm, hrm⟩
    · rw [ensureSchemaTable_records] at hin
      exact hsub v (List.mem_map.mpr ⟨r, hin, hvr⟩)
    · rw [← hvr, hrm]
      exact List.mem_map.mpr ⟨m, hm, rfl⟩
  · intro m hm
    have hnot := runLoop_attempted_not_applied exec fs
      (loadApplied (ensureSchemaTable st))
      (loadEmbeddedMigrations (fs.map Prod.fst)) (ensureSchemaTable st) m hm
    unfold loadApplied at hnot
    rw [ensureSchemaTable_records] at hnot
    exact hnot

/-- C6 witness: on a fresh database with one bundled script, after the run
every recorded version is a bundled version — in particular version 1. -/
theorem migration_apply_invariants_witness :
    (1 : Int) ∈ (loadEmbeddedMigrations
      ([("001_a.sql", "x")].map Prod.fst)).map Mig.version :=
  (migration_apply_invariants execOk [("001_a.sql", "x")] st0).2.1
    (by decide) 1 (by decide)

/-- C10 counterexample: two bundled scripts both claim version 5 and the
first one's body fails; Apply returns an error but the tracking table ends
with zero records for version 5, not exactly one — and the error is a body
failure, not the bookkeeping insert's primary-key violation. -/
theorem migration_duplicate_version_cex :
    2 ≤ (loadEmbeddedMigrations
        ([("005_a.sql", "BAD"), ("005_b.sql", "ok")].map Prod.fst)).countP
        (fun m => m.version == (5 : Int)) ∧
    (RunMigrations execBad [("005_a.sql", "BAD"), ("005_b.sql", "ok")]
        st0).err.isSome = true ∧
    (RunMigrations execBad [("005_a.sql", "BAD"), ("005_b.sql", "ok")]
        st0).state.records.countP (fun r => r.1 == (5 : Int)) = 0 := by
  decide

/-- C10 (amended): if the bundled set contains at least two scripts with
the same version v not yet recorded as applied, Apply always returns an
error, and at most one tracking record for v ever ends up committed —
the version primary key admits no second insert. -/
theorem migration_duplicate_version (exec : Exec σ) (fs : FS)
    (st : MigState σ) (v : Int)
    (hdup : 2 ≤ (loadEmbeddedMigrations (fs.map Prod.fst)).countP
        (fun m => m.version == v))
    (hnot : v ∉ st.records.map Prod.fst) :
    (RunMigrations exec fs st).err ≠ none ∧
    (RunMigrations exec fs st).state.records.countP
      (fun r => r.1 == v) ≤ 1 := by
  have hzero : st.records.countP (fun r => r.1 == v) = 0 := by
    rw [List.countP_eq_zero]
    intro r hr
    simp only [beq_iff_eq]
    intro hrv
    exact hnot (List.mem_map.mpr ⟨r, hr, hrv⟩)
  have hA : v ∉ loadApplied (ensureSchemaTable st) := by
    unfold loadApplied
    rw [ensureSchemaTable_records]
    exact hnot
  constructor
  · refine runLoop_dup_err exec fs (loadApplied (ensureSchemaTable st)) v
      (loadEmbeddedMigrations (fs.map Prod.fst)) (ensureSchemaTable st)
      hA ?_ ?_
    · rw [ensureSchemaTable_records, hzero]
      omega
    · rw [ensureSchemaTable_records, hzero]
      omega
  · refine runLoop_countP_le_one exec fs (loadApplied (ensureSchemaTable st))
      v (loadEmbeddedMigrations (fs.map Prod.fst)) (ensureSchemaTable st) ?_
    rw [ensureSchemaTable_records, hzero]
    omega

/-- C10 witness: two bundled scripts with version 5 and succeeding bodies —
the run errors and exactly the first insert for version 5 survives. -/
theorem migration_duplicate_version_witness :
    (RunMigrations execOk [("005_a.sql", "x"), ("005_b.sql", "y")]
        st0).err ≠ none ∧
    (RunMigrations execOk [("005_a.sql", "x"), ("005_b.sql", "y")]
        st0).state.records.countP (fun r => r.1 == (5 : Int)) ≤ 1 :=
  migration_duplicate_version execOk
    [("005_a.sql", "x"), ("005_b.sql", "y")] st0 5 (by decide) (by decide)

/-- C7: on both backends, Set then Get returns exactly the value written,
and two Sets to the same key followed by Get return the second value —
last write wins. -/
theorem kv_roundtrip_overwrite (key : String) (v v1 v2 : Bytes)
    (m : MemoryStore) (s : SqliteStore) (n n1 n2 : Nat) :
    (m.Set key v).Get key = Except.ok v ∧
    (s.Set key v n).Get key = Except.ok v ∧
    ((m.Set key v1).Set key v2).Get key = Except.ok v2 ∧
    ((s.Set key v1 n1).Set key v2 n2).Get key = Except.ok v2 := by
  refine ⟨?_, ?_, ?_, ?_⟩ <;>
    simp [MemoryStore.Get, MemoryStore.Set, SqliteStore.Get, SqliteStore.Set]

/-- C8: on both backends, Get on a key that is absent — never written, or
written and then deleted — returns the ErrNotFound outcome rather than any
stored value, and Delete on an absent key is a successful no-op that
leaves the store unchanged. -/
theorem kv_notfound_delete (key : String) (v : Bytes)
    (m : MemoryStore) (s : SqliteStore) (n : Nat) :
    (m.data key = none → m.Get key = Except.error StoreError.notFound) ∧
    (s.table key = none → s.Get key = Except.error StoreError.notFound) ∧
    ((m.Set key v).Delete key).Get key = Except.error StoreError.notFound ∧
    ((s.Set key v n).Delete key).Get key = Except.error StoreError.notFound ∧
    (m.data key = none → m.Delete key = m) ∧
    (s.table key = none → s.Delete key = s) := by
  refine ⟨?_, ?_, ?_, ?_, ?_, ?_⟩
  · intro h
    unfold MemoryStore.Get
    rw [h]
  · intro h
    unfold SqliteStore.Get
    rw [h]
  · simp [MemoryStore.Get, MemoryStore.Set, MemoryStore.Delete]
  · simp [SqliteStore.Get, SqliteStore.Set, SqliteStore.Delete]
  · intro h
    show MemoryStore.mk (fun k => if k = key then none else m.data k) = m
    have hfun : (fun k => if k = key then none else m.data k) = m.data := by
      funext k
      by_cases hk : k = key
      · subst hk
        rw [if_pos rfl, h]
      · rw [if_neg hk]
    rw [hfun]
  · intro h
    show SqliteStore.mk (fun k => if k = key then none else s.table k) = s
    have hfun : (fun k => if k = key then none else s.table k) = s.table := by
      funext k
      by_cases hk : k = key
      · subst hk
        rw [if_pos rfl, h]
      · rw [if_neg hk]
    rw [hfun]

/-- C8 witness: on the empty stores, a never-written key and a
written-then-deleted key both yield ErrNotFound, and deleting an absent
key leaves the store untouched. -/
theorem kv_notfound_delete_witness :
    memEmpty.Get "a" = Except.error StoreError.notFound ∧
    sqlEmpty.Get "a" = Except.error StoreError.notFound ∧
    ((memEmpty.Set "a" [1]).Delete "a").Get "a" =
      Except.error StoreError.notFound ∧
    ((sqlEmpty.Set "a" [1] 7).Delete "a").Get "a" =
      Except.error StoreError.notFound ∧
    memEmpty.Delete "a" = memEmpty := by
  obtain ⟨h1, h2, h3, h4, h5, h6⟩ :=
    kv_notfound_delete "a" [1] memEmpty sqlEmpty 7
  exact ⟨h1 rfl, h2 rfl, h3, h4, h5 rfl⟩

/-- C9: when the encoding round-trips the value, SetJSON stores the encoded
bytes and GetJSON returns a value equal to the original, on both backends;
a decode failure surfaces as the decode-failure error, which is never the
NotFound sentinel. -/
theorem json_typed_roundtrip {T : Type}
    (marshal : T → Except String Bytes) (unmarshal : Bytes → Except String T)
    (key : String) (v : T) (data : Bytes)
    (m : MemoryStore) (s : SqliteStore) (now : Nat)
    (hm : marshal v = Except.ok data)
    (hu : unmarshal data = Except.ok v) :
    SetJSON memKV marshal m key v = Except.ok (m.Set key data) ∧
    GetJSON memKV unmarshal (m.Set key data) key = Except.ok v ∧
    SetJSON (sqlKV now) marshal s key v = Except.ok (s.Set key data now) ∧
    GetJSON (sqlKV now) unmarshal (s.Set key data now) key = Except.ok v ∧
    (∀ (S : Type) (kv : KV S) (store : S) (k : String) (d : Bytes)
        (msg : String),
      kv.get store k = Except.ok d → unmarshal d = Except.error msg →
      GetJSON kv unmarshal store k =
        Except.error (StoreError.decodeFailed msg)) ∧
    (∀ msg, StoreError.decodeFailed msg ≠ StoreError.notFound) := by
  refine ⟨?_, ?_, ?_, ?_, ?_, ?_⟩
  · unfold SetJSON
    rw [hm]
    rfl
  · unfold GetJSON
    have hget : memKV.get (m.Set key data) key = Except.ok data := by
      simp [memKV, MemoryStore.Get, MemoryStore.Set]
    rw [hget]
    simp only []
    rw [hu]
  · unfold SetJSON
    rw [hm]
    rfl
  · unfold GetJSON
    have hget : (sqlKV now).get (s.Set key data now) key = Except.ok data := by
      simp [sqlKV, SqliteStore.Get, SqliteStore.Set]
    rw [hget]
    simp only []
    rw [hu]
  · intro S kv store k d msg hget hdec
    unfold GetJSON
    rw [hget]
    simp only []
    rw [hdec]
  · intro msg h
    cases h

/-- C9 witness: storing the structured value 5 under a key and reading it
back returns 5 on the memory backend, through the typed wrapper. -/
theorem json_typed_roundtrip_witness :
    SetJSON memKV natMarshal memEmpty "counter" 5 =
      Except.ok (memEmpty.Set "counter" [5]) ∧
    GetJSON memKV natUnmarshal (memEmpty.Set "counter" [5]) "counter" =
      Except.ok 5 := by
  obtain ⟨h1, h2, -⟩ := json_typed_roundtrip natMarshal natUnmarshal
    "counter" 5 [5] memEmpty sqlEmpty 0 rfl rfl
  exact ⟨h1, h2⟩
